import Mathlib

/-!
Shallow embedding of the raytracer in src/src/lib.rs.

Numeric model: the source computes in `f64`.  We idealize finite `f64`
values as rationals (`ℚ`) and model the `INFINITY` sentinel with
`WithTop ℚ` (written `⊤`), whose order agrees with IEEE `+∞` on the
comparisons the program performs (`⊤ < ⊤` is false, `q < ⊤` is true for
finite `q`, `⊤ < q` is false).  `NaN` and `-∞` never arise on the paths
the claims are about and are not modelled.  The `f64::sqrt` intrinsic is
modelled by `ratSqrt`, a nonnegative rational square root that is exact
on perfect squares (every concrete evaluation below uses perfect-square
discriminants); its only property used in general theorems is
nonnegativity, which `f64::sqrt` shares on nonnegative inputs.
-/

namespace Raytracer

/-- Rational square root model of f64::sqrt: nonnegative, exact on
rationals whose numerator and denominator are perfect squares, and 0 on
negative inputs (the program only applies it to nonnegative values). -/
def ratSqrt (q : ℚ) : ℚ :=
  (Nat.sqrt q.num.toNat : ℚ) / (Nat.sqrt q.den : ℚ)

/-- nalgebra Vector3<f64>, components idealized as rationals. -/
structure Vec3 where
  x : ℚ
  y : ℚ
  z : ℚ
deriving DecidableEq, Repr

/-- Vector addition (nalgebra +). -/
def Vec3.add (a b : Vec3) : Vec3 := ⟨a.x + b.x, a.y + b.y, a.z + b.z⟩

/-- Vector subtraction (nalgebra -). -/
def Vec3.sub (a b : Vec3) : Vec3 := ⟨a.x - b.x, a.y - b.y, a.z - b.z⟩

/-- Vector negation (nalgebra unary -). -/
def Vec3.neg (a : Vec3) : Vec3 := ⟨-a.x, -a.y, -a.z⟩

/-- Dot product (nalgebra Vector3::dot). -/
def Vec3.dot (a b : Vec3) : ℚ := a.x * b.x + a.y * b.y + a.z * b.z

/-- Scalar multiple (nalgebra Vector3::scale). -/
def Vec3.scale (a : Vec3) (k : ℚ) : Vec3 := ⟨a.x * k, a.y * k, a.z * k⟩

/-- nalgebra Vector3::normalize: v / ‖v‖, with ‖v‖ = √(v·v) modelled via
ratSqrt.  (On the zero vector f64 would produce NaN; the model yields 0.
No claim depends on that case.) -/
def Vec3.normalize (a : Vec3) : Vec3 :=
  a.scale (1 / ratSqrt (a.dot a))

/-- image::Rgb<u8>: three 8-bit channels, modelled as naturals (the
operations below only ever produce values in [0, 255]). -/
structure Rgb where
  r : ℕ
  g : ℕ
  b : ℕ
deriving DecidableEq, Repr

/-- One channel of Scalable::scale for Rgb<u8>:
(self[i] as f64 * scalar).min(255.0) as u8.  The Rust f64-to-u8 `as`
cast truncates toward zero and saturates at 0 and 255; for the values
produced here this is floor followed by clamping below at 0 (Int.toNat). -/
def scaleChannel (ci : ℕ) (k : ℚ) : ℕ :=
  (min ((ci : ℚ) * k) 255).floor.toNat

/-- Scalable::scale for Rgb<u8> (lib.rs lines 79-89), the channel loop
unrolled. -/
def Rgb.scale (c : Rgb) (k : ℚ) : Rgb :=
  ⟨scaleChannel c.r k, scaleChannel c.g k, scaleChannel c.b k⟩

/-- Sphere (lib.rs lines 12-17): center, u32 radius, color, optional
i32 shininess. -/
structure Sphere where
  center : Vec3
  radius : ℕ
  color : Rgb
  shininess : Option ℤ
deriving DecidableEq, Repr

/-- LightKind (lib.rs lines 20-30). -/
inductive LightKind where
  | Ambient : LightKind
  | Point : Vec3 → LightKind
  | Directional : Vec3 → LightKind
deriving DecidableEq, Repr

/-- Light (lib.rs lines 33-36). -/
structure Light where
  kind : LightKind
  intensity : ℚ
deriving DecidableEq, Repr

/-- Scene (lib.rs lines 6-9). -/
structure Scene where
  objects : List Sphere
  lights : List Light
deriving DecidableEq, Repr

/-- The u32 squared radius r*r computed in intersect_ray_sphere
(lib.rs line 154): u32 multiplication wraps modulo 2^32 in release
builds. -/
def sq32 (r : ℕ) : ℕ := (r * r) % 2 ^ 32

/-- Coefficient a = direction·direction (lib.rs line 152). -/
def aCoeff (d : Vec3) : ℚ := d.dot d

/-- Coefficient b = 2·(origin−center)·direction (lib.rs line 153). -/
def bCoeff (o d : Vec3) (s : Sphere) : ℚ := 2 * (o.sub s.center).dot d

/-- Coefficient c = co·co − (r*r) as f64 (lib.rs line 154), with the
u32 squaring of the radius. -/
def cCoeff (o : Vec3) (s : Sphere) : ℚ :=
  (o.sub s.center).dot (o.sub s.center) - (sq32 s.radius : ℚ)

/-- discriminant = b*b − 4*a*c (lib.rs line 156). -/
def discrim (o d : Vec3) (s : Sphere) : ℚ :=
  bCoeff o d s * bCoeff o d s - 4 * aCoeff d * cCoeff o s

/-- intersect_ray_sphere (lib.rs lines 148-165): negative discriminant
returns the (INFINITY, INFINITY) sentinel, otherwise the two
quadratic-formula roots, +√disc first. -/
def intersect_ray_sphere (o d : Vec3) (s : Sphere) : WithTop ℚ × WithTop ℚ :=
  if discrim o d s < 0 then (⊤, ⊤)
  else
    (((-bCoeff o d s + ratSqrt (discrim o d s)) / (2 * aCoeff d) : ℚ),
     ((-bCoeff o d s - ratSqrt (discrim o d s)) / (2 * aCoeff d) : ℚ))

/-- The root test and update inside trace_ray's inner loop (lib.rs
lines 130-133): if (t > t_min && t < t_max) && t < closest_t, record
(t, sphere). -/
def hitUpdate (tmin tmax : WithTop ℚ) (acc : WithTop ℚ × Option Sphere)
    (s : Sphere) (t : WithTop ℚ) : WithTop ℚ × Option Sphere :=
  if tmin < t ∧ t < tmax ∧ t < acc.1 then (t, some s) else acc

/-- One iteration of trace_ray's outer loop (lib.rs lines 126-135):
intersect the ray with one sphere and test both roots in order. -/
def traceStep (o d : Vec3) (tmin tmax : WithTop ℚ)
    (acc : WithTop ℚ × Option Sphere) (s : Sphere) : WithTop ℚ × Option Sphere :=
  let p := intersect_ray_sphere o d s
  [p.1, p.2].foldl (fun acc t => hitUpdate tmin tmax acc s t) acc

/-- The closest-hit scan of trace_ray (lib.rs lines 123-135):
closest_t starts at INFINITY, closest_sphere at None. -/
def closestHit (scene : Scene) (o d : Vec3) (tmin tmax : WithTop ℚ) :
    WithTop ℚ × Option Sphere :=
  scene.objects.foldl (traceStep o d tmin tmax) (⊤, none)

/-- The diffuse and (optional) specular contributions of one
non-ambient light (lib.rs lines 185-194), given the normalized
point-to-light vector. -/
def diffSpec (normal view : Vec3) (shininess : Option ℤ) (intensity : ℚ)
    (illum : ℚ) (ptl : Vec3) : ℚ :=
  let illum1 := illum + intensity * max (normal.dot ptl) 0
  match shininess with
  | some sh =>
      let reflec := (normal.scale (2 * normal.dot ptl)).sub ptl
      let viewN := view.normalize
      illum1 + intensity * (max (reflec.dot viewN) 0) ^ sh
  | none => illum1

/-- One iteration of compute_lighting's loop over lights (lib.rs
lines 173-195). -/
def lightStep (point normal view : Vec3) (shininess : Option ℤ)
    (illum : ℚ) (light : Light) : ℚ :=
  match light.kind with
  | LightKind.Ambient => illum + light.intensity
  | LightKind.Point pos =>
      diffSpec normal view shininess light.intensity illum ((pos.sub point).normalize)
  | LightKind.Directional dir =>
      diffSpec normal view shininess light.intensity illum dir.normalize

/-- compute_lighting (lib.rs lines 167-198). -/
def compute_lighting (scene : Scene) (point normal view : Vec3)
    (shininess : Option ℤ) : ℚ :=
  scene.lights.foldl (lightStep point normal view shininess) 0

/-- trace_ray (lib.rs lines 122-145).  When a sphere was recorded the
accompanying closest_t is a finite rational (a recorded root passed
t < t_max, and ⊤ < t_max never holds), so untop' 0 merely strips the
WithTop wrapper on that path. -/
def trace_ray (scene : Scene) (o d : Vec3) (tmin tmax : WithTop ℚ) : Rgb :=
  match closestHit scene o d tmin tmax with
  | (ct, some sphere) =>
      let t : ℚ := ct.untop' 0
      let point := o.add (d.scale t)
      let normal := (point.sub sphere.center).normalize
      Rgb.scale sphere.color
        (compute_lighting scene point normal d.neg sphere.shininess)
  | (_, none) => ⟨255, 255, 255⟩

/-- Canvas (lib.rs lines 40-42): we keep only the dimensions, which is
all the bounds claims need. -/
structure Canvas where
  width : ℕ
  height : ℕ
deriving DecidableEq, Repr

/-- Canvas::put_pixel (lib.rs lines 51-55) composed with the bounds
check of image::RgbImage::put_pixel: the translated buffer indices are
returned when in bounds, and none models the out-of-bounds panic
branch.  Machine-width casts are elided: for width and height below
2^31 (the range C7 quantifies over) every intermediate value fits in
i32 and the i32-to-u32 reinterpretation of an in-range index is the
identity, so the elision is faithful there. -/
def put_pixel_idx (c : Canvas) (x y : ℤ) : Option (ℕ × ℕ) :=
  let xBuf : ℤ := (c.width : ℤ) / 2 + x
  let yBuf : ℤ := (c.height : ℤ) / 2 - (y + 1)
  if 0 ≤ xBuf ∧ xBuf < (c.width : ℤ) ∧ 0 ≤ yBuf ∧ yBuf < (c.height : ℤ) then
    some (xBuf.toNat, yBuf.toNat)
  else none

/-- Viewport (lib.rs lines 68-72). -/
structure Viewport where
  width : ℕ
  height : ℕ
  distance : ℚ
deriving DecidableEq, Repr

/-- canvas_to_viewport (lib.rs lines 114-120). -/
def canvas_to_viewport (x y : ℤ) (c : Canvas) (vp : Viewport) : Vec3 :=
  ⟨(x : ℚ) * (vp.width : ℚ) / (c.width : ℚ),
   (y : ℚ) * (vp.height : ℚ) / (c.height : ℚ),
   vp.distance⟩

/-- A Rust half-open integer range a..b as a list. -/
def rustRange (a b : ℤ) : List ℤ :=
  (List.range (b - a).toNat).map (fun (i : ℕ) => a + (i : ℤ))

/-- The (x, y) pairs visited by render's nested loops (lib.rs lines
103-104), in iteration order.  The source computes cw as
`canvas.width() as i32`; this model uses the mathematical width, which
agrees with the cast exactly when the width is below 2^31 (the range
C7 quantifies over — at 2^31 and above the cast wraps negative and the
real loop is empty).  Rust's -cw/2 is -(cw/2) under its truncating
division with cw ≥ 0, which is the form used here (every division
below has a nonnegative dividend, where all integer-division
conventions agree). -/
def renderPixels (w h : ℕ) : List (ℤ × ℤ) :=
  (rustRange (-((w : ℤ) / 2)) ((w : ℤ) / 2)).flatMap
    (fun x => (rustRange (-((h : ℤ) / 2)) ((h : ℤ) / 2)).map (fun y => (x, y)))

/-- render's per-pixel work (lib.rs lines 92-109): for each visited
(x, y), the traced color together with the centered coordinates passed
to put_pixel.  Camera origin (0,0,0), viewport 1×1 at distance 1,
t_min = 1.0, t_max = INFINITY. -/
def render (c : Canvas) (scene : Scene) : List ((ℤ × ℤ) × Rgb) :=
  (renderPixels c.width c.height).map
    (fun p => (p, trace_ray scene ⟨0, 0, 0⟩
      (canvas_to_viewport p.1 p.2 c ⟨1, 1, 1⟩) ((1 : ℚ) : WithTop ℚ) ⊤))

/-- The condition t_min < t < t_max from trace_ray's root test. -/
abbrev qualifies (tmin tmax t : WithTop ℚ) : Prop := tmin < t ∧ t < tmax

/-- The flattened candidate list examined by the closest-hit scan: for
each sphere in order, both roots (t1 then t2) paired with their sphere. -/
def hitCands (o d : Vec3) (objs : List Sphere) : List (WithTop ℚ × Sphere) :=
  objs.flatMap (fun s =>
    [((intersect_ray_sphere o d s).1, s), ((intersect_ray_sphere o d s).2, s)])

/-- The closest-hit scan expressed over the flattened candidate list. -/
def candFold (tmin tmax : WithTop ℚ) (acc : WithTop ℚ × Option Sphere)
    (l : List (WithTop ℚ × Sphere)) : WithTop ℚ × Option Sphere :=
  l.foldl (fun acc c => hitUpdate tmin tmax acc c.2 c.1) acc

/-- One light's total contribution, independent of the running sum. -/
def lightContrib (point normal view : Vec3) (shininess : Option ℤ)
    (light : Light) : ℚ :=
  lightStep point normal view shininess 0 light

/-- A sphere s₁ ∈ objs whose root t is a qualifying minimum of the
whole candidate list (used to state when the closest hit is
order-independent). -/
def attainsMin (o d : Vec3) (tmin tmax : WithTop ℚ) (objs : List Sphere)
    (t : WithTop ℚ) (s : Sphere) : Prop :=
  (t, s) ∈ hitCands o d objs ∧ qualifies tmin tmax t ∧
    ∀ c ∈ hitCands o d objs, qualifies tmin tmax c.1 → t ≤ c.1

/-- Concrete fixture: unit sphere at (0,0,3), red, no shininess.  A ray
from the origin along +z meets it at t = 2 and t = 4
(discriminant 4, a perfect square, so ratSqrt is exact). -/
def sphereRed : Sphere := ⟨⟨0, 0, 3⟩, 1, ⟨255, 0, 0⟩, none⟩

/-- Concrete fixture: same geometry as sphereRed but blue — a ray
hitting both produces a tie at the same t. -/
def sphereBlue : Sphere := ⟨⟨0, 0, 3⟩, 1, ⟨0, 0, 255⟩, none⟩

/-- Concrete fixture: unit sphere at (0,0,7), blue; the +z ray meets it
at t = 6 and t = 8, farther than sphereRed. -/
def sphereFar : Sphere := ⟨⟨0, 0, 7⟩, 1, ⟨0, 0, 255⟩, none⟩

/-- Concrete fixture: unit sphere at (0,0,-3), behind the +z ray: both
roots are negative, so no root qualifies for t_min = 1. -/
def sphereBehind : Sphere := ⟨⟨0, 0, -3⟩, 1, ⟨9, 9, 9⟩, none⟩

/-- Concrete fixture: unit sphere at (5,0,3), off the +z ray axis: the
discriminant is negative. -/
def sphereMiss : Sphere := ⟨⟨5, 0, 3⟩, 1, ⟨0, 0, 0⟩, none⟩

/-- Concrete fixture: a sphere whose u32 radius squaring wraps. -/
def sphereHuge : Sphere := ⟨⟨0, 0, 0⟩, 65536, ⟨0, 0, 0⟩, none⟩

/-- Concrete fixture: ambient light of intensity 1. -/
def ambientOne : Light := ⟨LightKind.Ambient, 1⟩

/-- Concrete fixture: the camera origin. -/
def camOrigin : Vec3 := ⟨0, 0, 0⟩

/-- Concrete fixture: the +z direction. -/
def dirZ : Vec3 := ⟨0, 0, 1⟩

/-- Concrete fixture: two coincident spheres of different colors — the
two orderings of this objects list disagree at the tie. -/
def tieScene : Scene := ⟨[sphereRed, sphereBlue], [ambientOne]⟩

/-- Concrete fixture: tieScene with the objects list reversed. -/
def tieSceneRev : Scene := ⟨[sphereBlue, sphereRed], [ambientOne]⟩

/-- Concrete fixture: two spheres at different distances along +z. -/
def twoDistScene : Scene := ⟨[sphereRed, sphereFar], [ambientOne]⟩

/-- Concrete fixture: twoDistScene with the objects list reversed. -/
def twoDistSceneRev : Scene := ⟨[sphereFar, sphereRed], [ambientOne]⟩

/-- The per-sphere loop of trace_ray equals the fold over the flattened
candidate list. -/
theorem foldl_traceStep_eq_candFold (o d : Vec3) (tmin tmax : WithTop ℚ)
    (objs : List Sphere) :
    ∀ acc, objs.foldl (traceStep o d tmin tmax) acc =
      candFold tmin tmax acc (hitCands o d objs) := by
  induction objs with
  | nil => intro acc; rfl
  | cons s objs ih =>
      intro acc
      simp only [List.foldl_cons, hitCands, List.flatMap_cons, candFold,
        List.foldl_append] at ih ⊢
      rw [ih]
      rfl

/-- closestHit as a fold over the flattened candidate list. -/
theorem closestHit_eq_candFold (scene : Scene) (o d : Vec3) (tmin tmax : WithTop ℚ) :
    closestHit scene o d tmin tmax =
      candFold tmin tmax (⊤, none) (hitCands o d scene.objects) :=
  foldl_traceStep_eq_candFold o d tmin tmax scene.objects (⊤, none)

/-- Candidates that fail the t_min < t < t_max test never change the
accumulator, so a candidate list with no qualifying entry leaves it
untouched. -/
theorem candFold_eq_of_no_qual (tmin tmax : WithTop ℚ)
    (l : List (WithTop ℚ × Sphere)) :
    ∀ acc, (∀ c ∈ l, ¬ qualifies tmin tmax c.1) →
      candFold tmin tmax acc l = acc := by
  induction l with
  | nil => intro acc _; rfl
  | cons c l ih =>
      intro acc hno
      have hc : ¬ (tmin < c.1 ∧ c.1 < tmax ∧ c.1 < acc.1) := by
        intro h
        exact hno c (List.mem_cons_self c l) ⟨h.1, h.2.1⟩
      simp only [candFold, List.foldl_cons]
      rw [show hitUpdate tmin tmax acc c.2 c.1 = acc from by
        rw [hitUpdate, if_neg hc]]
      exact ih acc (fun c' h' => hno c' (List.mem_cons_of_mem c h'))

/-- Structure of the closest-hit fold: either no candidate qualified
strictly below the incoming accumulator and the accumulator is
returned unchanged, or the result is the first candidate attaining the
minimum qualifying value below the accumulator — candidates before it
are strictly larger (ties keep the earlier candidate), candidates
after it are at least as large. -/
theorem candFold_char (tmin tmax : WithTop ℚ) (l : List (WithTop ℚ × Sphere)) :
    ∀ (acc : WithTop ℚ × Option Sphere) (ct : WithTop ℚ) (cs : Option Sphere),
      candFold tmin tmax acc l = (ct, cs) →
      ((ct, cs) = acc ∧ ∀ c ∈ l, qualifies tmin tmax c.1 → acc.1 ≤ c.1) ∨
      (∃ s l₁ l₂, cs = some s ∧ l = l₁ ++ (ct, s) :: l₂ ∧
        qualifies tmin tmax ct ∧ ct < acc.1 ∧
        (∀ c ∈ l₁, qualifies tmin tmax c.1 → ct < c.1) ∧
        (∀ c ∈ l₂, qualifies tmin tmax c.1 → ct ≤ c.1)) := by
  induction l with
  | nil =>
      intro acc ct cs h
      left
      exact ⟨h.symm, by simp⟩
  | cons c l ih =>
      intro acc ct cs h
      simp only [candFold, List.foldl_cons] at h
      by_cases hc : tmin < c.1 ∧ c.1 < tmax ∧ c.1 < acc.1
      · rw [show hitUpdate tmin tmax acc c.2 c.1 = (c.1, some c.2) from by
          rw [hitUpdate, if_pos hc]] at h
        rcases ih (c.1, some c.2) ct cs h with ⟨heq, hall⟩ |
          ⟨s, l₁, l₂, hcs, hsplit, hq, hlt, h₁, h₂⟩
        · right
          have hct : ct = c.1 := congrArg Prod.fst heq
          have hcs' : cs = some c.2 := congrArg Prod.snd heq
          refine ⟨c.2, [], l, hcs', ?_, ?_, ?_, ?_, ?_⟩
          · simp [hct]
          · exact hct ▸ ⟨hc.1, hc.2.1⟩
          · exact hct ▸ hc.2.2
          · intro c' h'; exact absurd h' (List.not_mem_nil c')
          · intro c' h' hq'
            exact hct ▸ hall c' h' hq'
        · right
          refine ⟨s, c :: l₁, l₂, hcs, by rw [hsplit]; rfl, hq, ?_, ?_, h₂⟩
          · exact lt_trans hlt hc.2.2
          · intro c' h' hq'
            rcases List.mem_cons.mp h' with rfl | h''
            · exact hlt
            · exact h₁ c' h'' hq'
      · rw [show hitUpdate tmin tmax acc c.2 c.1 = acc from by
          rw [hitUpdate, if_neg hc]] at h
        have hcle : qualifies tmin tmax c.1 → acc.1 ≤ c.1 := by
          intro hq'
          by_contra hlt'
          exact hc ⟨hq'.1, hq'.2, lt_of_not_le hlt'⟩
        rcases ih acc ct cs h with ⟨heq, hall⟩ |
          ⟨s, l₁, l₂, hcs, hsplit, hq, hlt, h₁, h₂⟩
        · left
          refine ⟨heq, ?_⟩
          intro c' h' hq'
          rcases List.mem_cons.mp h' with rfl | h''
          · exact hcle hq'
          · exact hall c' h'' hq'
        · right
          refine ⟨s, c :: l₁, l₂, hcs, by rw [hsplit]; rfl, hq, hlt, ?_, h₂⟩
          intro c' h' hq'
          rcases List.mem_cons.mp h' with rfl | h''
          · exact lt_of_lt_of_le hlt (hcle hq')
          · exact h₁ c' h'' hq'

/-- Membership in the flattened candidate list: each candidate is one
of the two roots of some sphere of the list, paired with that sphere. -/
theorem mem_hitCands (o d : Vec3) (objs : List Sphere) (c : WithTop ℚ × Sphere) :
    c ∈ hitCands o d objs ↔
      ∃ s ∈ objs, c = ((intersect_ray_sphere o d s).1, s) ∨
        c = ((intersect_ray_sphere o d s).2, s) := by
  simp [hitCands, List.mem_flatMap]

/-- If the scan returned a sphere, the candidate list splits at the
first candidate attaining the qualifying minimum. -/
theorem closestHit_some_char (scene : Scene) (o d : Vec3)
    (tmin tmax ct : WithTop ℚ) (s : Sphere)
    (h : closestHit scene o d tmin tmax = (ct, some s)) :
    ∃ l₁ l₂, hitCands o d scene.objects = l₁ ++ (ct, s) :: l₂ ∧
      qualifies tmin tmax ct ∧
      (∀ c ∈ l₁, qualifies tmin tmax c.1 → ct < c.1) ∧
      (∀ c ∈ hitCands o d scene.objects, qualifies tmin tmax c.1 → ct ≤ c.1) := by
  rw [closestHit_eq_candFold] at h
  rcases candFold_char tmin tmax (hitCands o d scene.objects) (⊤, none) ct (some s) h
    with ⟨heq, _⟩ | ⟨s', l₁, l₂, hcs, hsplit, hq, _, h₁, h₂⟩
  · exact absurd (congrArg Prod.snd heq) (by simp)
  · obtain rfl : s' = s := (Option.some.inj hcs).symm
    refine ⟨l₁, l₂, hsplit, hq, h₁, ?_⟩
    intro c hc hqc
    rw [hsplit] at hc
    rcases List.mem_append.mp hc with hc₁ | hc₂
    · exact le_of_lt (h₁ c hc₁ hqc)
    · rcases List.mem_cons.mp hc₂ with rfl | hc₃
      · exact le_refl _
      · exact h₂ c hc₃ hqc

/-- If the scan returned no sphere, no candidate qualified: the value
⊤ kept as closest_t can never satisfy t < t_max, whatever t_max is. -/
theorem closestHit_none_no_qual (scene : Scene) (o d : Vec3)
    (tmin tmax ct : WithTop ℚ)
    (h : closestHit scene o d tmin tmax = (ct, none)) :
    ∀ c ∈ hitCands o d scene.objects, ¬ qualifies tmin tmax c.1 := by
  rw [closestHit_eq_candFold] at h
  rcases candFold_char tmin tmax (hitCands o d scene.objects) (⊤, none) ct none h
    with ⟨heq, hall⟩ | ⟨s', l₁, l₂, hcs, _⟩
  · intro c hc hq
    have htop : (⊤ : WithTop ℚ) ≤ c.1 := by
      have := hall c hc hq
      simpa using this
    have : c.1 = ⊤ := top_le_iff.mp htop
    rw [this] at hq
    exact WithTop.not_top_lt tmax hq.2
  · exact absurd hcs (by simp)

/-- If no candidate qualifies, the scan returns the initial
accumulator (INFINITY, None). -/
theorem closestHit_eq_none (scene : Scene) (o d : Vec3) (tmin tmax : WithTop ℚ)
    (h : ∀ c ∈ hitCands o d scene.objects, ¬ qualifies tmin tmax c.1) :
    closestHit scene o d tmin tmax = (⊤, none) := by
  rw [closestHit_eq_candFold]
  exact candFold_eq_of_no_qual tmin tmax (hitCands o d scene.objects) (⊤, none) h

/-- diffSpec adds its diffuse and specular terms on top of the running
sum. -/
theorem diffSpec_eq (normal view : Vec3) (shininess : Option ℤ)
    (intensity illum : ℚ) (ptl : Vec3) :
    diffSpec normal view shininess intensity illum ptl =
      illum + diffSpec normal view shininess intensity 0 ptl := by
  cases shininess with
  | none => simp [diffSpec]
  | some sh => simp [diffSpec]; ring

/-- Each loop iteration of compute_lighting adds that light's
contribution to the running sum. -/
theorem lightStep_eq (point normal view : Vec3) (shininess : Option ℤ)
    (illum : ℚ) (light : Light) :
    lightStep point normal view shininess illum light =
      illum + lightContrib point normal view shininess light := by
  cases light with
  | mk kind intensity =>
      cases kind with
      | Ambient => simp [lightStep, lightContrib]
      | Point pos =>
          simp only [lightStep, lightContrib]
          rw [diffSpec_eq, diffSpec_eq _ _ _ _ 0]
      | Directional dir =>
          simp only [lightStep, lightContrib]
          rw [diffSpec_eq, diffSpec_eq _ _ _ _ 0]

/-- compute_lighting is the sum of the per-light contributions. -/
theorem compute_lighting_eq_sum (scene : Scene) (point normal view : Vec3)
    (shininess : Option ℤ) :
    compute_lighting scene point normal view shininess =
      (scene.lights.map (lightContrib point normal view shininess)).sum := by
  rw [compute_lighting]
  suffices h : ∀ (ls : List Light) (illum : ℚ),
      ls.foldl (lightStep point normal view shininess) illum =
        illum + (ls.map (lightContrib point normal view shininess)).sum by
    simpa using h scene.lights 0
  intro ls
  induction ls with
  | nil => intro illum; simp
  | cons light ls ih =>
      intro illum
      rw [List.foldl_cons, lightStep_eq, ih, List.map_cons, List.sum_cons]
      ring

/-- Reordering the lights does not change compute_lighting (the
objects list is never read by it). -/
theorem compute_lighting_perm (objs objs' : List Sphere) (ls ls' : List Light)
    (hp : List.Perm ls ls') (point normal view : Vec3) (shininess : Option ℤ) :
    compute_lighting ⟨objs, ls⟩ point normal view shininess =
      compute_lighting ⟨objs', ls'⟩ point normal view shininess := by
  rw [compute_lighting_eq_sum, compute_lighting_eq_sum]
  exact List.Perm.sum_eq (List.Perm.map _ hp)

/-- trace_ray on the hit branch, with the recorded sphere and t made
explicit. -/
theorem trace_ray_of_some (scene : Scene) (o d : Vec3)
    (tmin tmax ct : WithTop ℚ) (s : Sphere)
    (h : closestHit scene o d tmin tmax = (ct, some s)) :
    trace_ray scene o d tmin tmax =
      Rgb.scale s.color (compute_lighting scene (o.add (d.scale (ct.untop' 0)))
        ((o.add (d.scale (ct.untop' 0))).sub s.center).normalize d.neg
        s.shininess) := by
  unfold trace_ray
  rw [h]

/-- trace_ray on the miss branch: the fixed white background. -/
theorem trace_ray_of_none (scene : Scene) (o d : Vec3)
    (tmin tmax ct : WithTop ℚ)
    (h : closestHit scene o d tmin tmax = (ct, none)) :
    trace_ray scene o d tmin tmax = ⟨255, 255, 255⟩ := by
  unfold trace_ray
  rw [h]

/-- Rat.floor is monotone. -/
theorem ratFloor_mono {a b : ℚ} (h : a ≤ b) : a.floor ≤ b.floor := by
  apply Rat.le_floor.mpr
  calc ((a.floor : ℚ)) ≤ a := Rat.le_floor.mp (le_refl _)
  _ ≤ b := h

/-- Rat.floor of the integer 255. -/
theorem ratFloor_255 : (255 : ℚ).floor = 255 := by
  with_unfolding_all decide

/-- One channel of color scaling, rephrased: multiply, truncate, clamp
at 255. -/
theorem scaleChannel_eq (ci : ℕ) (k : ℚ) :
    scaleChannel ci k = min (((ci : ℚ) * k).floor.toNat) 255 := by
  unfold scaleChannel
  rcases le_total ((ci : ℚ) * k) 255 with hle | hge
  · rw [min_eq_left hle]
    have h1 : ((ci : ℚ) * k).floor ≤ (255 : ℚ).floor := ratFloor_mono hle
    rw [ratFloor_255] at h1
    omega
  · rw [min_eq_right hge, ratFloor_255]
    have h1 : (255 : ℚ).floor ≤ ((ci : ℚ) * k).floor := ratFloor_mono hge
    rw [ratFloor_255] at h1
    omega

/-- Each light of nonnegative intensity contributes a nonnegative
amount: the ambient term is the intensity itself, and the diffuse and
specular terms are products of the intensity with max(0, ·)-clamped
factors. -/
theorem lightContrib_nonneg (point normal view : Vec3) (shininess : Option ℤ)
    (light : Light) (h : 0 ≤ light.intensity) :
    0 ≤ lightContrib point normal view shininess light := by
  cases light with
  | mk kind intensity =>
      cases kind with
      | Ambient => simpa [lightContrib, lightStep] using h
      | Point pos =>
          cases shininess with
          | none =>
              simp only [lightContrib, lightStep, diffSpec]
              exact add_nonneg (by simp)
                (mul_nonneg h (le_max_right _ 0))
          | some sh =>
              simp only [lightContrib, lightStep, diffSpec]
              exact add_nonneg
                (add_nonneg (by simp) (mul_nonneg h (le_max_right _ 0)))
                (mul_nonneg h (zpow_nonneg (le_max_right _ 0) sh))
      | Directional dir =>
          cases shininess with
          | none =>
              simp only [lightContrib, lightStep, diffSpec]
              exact add_nonneg (by simp)
                (mul_nonneg h (le_max_right _ 0))
          | some sh =>
              simp only [lightContrib, lightStep, diffSpec]
              exact add_nonneg
                (add_nonneg (by simp) (mul_nonneg h (le_max_right _ 0)))
                (mul_nonneg h (zpow_nonneg (le_max_right _ 0) sh))

/-- ratSqrt never returns a negative value (as f64::sqrt on the
nonnegative inputs the program feeds it). -/
theorem ratSqrt_nonneg (q : ℚ) : 0 ≤ ratSqrt q :=
  div_nonneg (by positivity) (by positivity)

/-- C2: intersect_ray_sphere computes the quadratic coefficients
a = d·d, b = 2·(o−center)·d, c = (o−center)·(o−center) − radius²
(the last one exactly for any radius that fits 16 bits, see C10 for
larger radii), and returns the (+∞, +∞) sentinel when the discriminant
b²−4ac is negative, otherwise the two quadratic-formula roots with the
+√disc root first — no sorting between them. -/
theorem C2_intersect_sentinel_and_roots (o d : Vec3) (s : Sphere) :
    aCoeff d = d.dot d ∧
    bCoeff o d s = 2 * (o.sub s.center).dot d ∧
    (s.radius ≤ 65535 → cCoeff o s =
      (o.sub s.center).dot (o.sub s.center) - (s.radius : ℚ) * (s.radius : ℚ)) ∧
    discrim o d s = bCoeff o d s ^ 2 - 4 * (aCoeff d * cCoeff o s) ∧
    (discrim o d s < 0 → intersect_ray_sphere o d s = (⊤, ⊤)) ∧
    (0 ≤ discrim o d s → intersect_ray_sphere o d s =
      ((((-bCoeff o d s + ratSqrt (discrim o d s)) / (2 * aCoeff d) : ℚ) : WithTop ℚ),
       (((-bCoeff o d s - ratSqrt (discrim o d s)) / (2 * aCoeff d) : ℚ) : WithTop ℚ))) := by
  refine ⟨rfl, rfl, ?_, by rw [discrim]; ring, ?_, ?_⟩
  · intro hr
    have hlt : s.radius * s.radius < 2 ^ 32 :=
      lt_of_le_of_lt (Nat.mul_le_mul hr hr) (by norm_num)
    rw [cCoeff, sq32, Nat.mod_eq_of_lt hlt]
    push_cast
    ring
  · intro hneg
    rw [intersect_ray_sphere, if_pos hneg]
  · intro hnn
    rw [intersect_ray_sphere, if_neg (not_lt.mpr hnn)]

/-- C2 witness: a ray that misses (negative discriminant, sentinel
returned) and a ray that hits (roots returned by formula). -/
theorem C2_witness :
    discrim camOrigin dirZ sphereMiss < 0 ∧
    intersect_ray_sphere camOrigin dirZ sphereMiss = (⊤, ⊤) ∧
    0 ≤ discrim camOrigin dirZ sphereRed ∧
    intersect_ray_sphere camOrigin dirZ sphereRed =
      ((((-bCoeff camOrigin dirZ sphereRed + ratSqrt (discrim camOrigin dirZ sphereRed)) /
          (2 * aCoeff dirZ) : ℚ) : WithTop ℚ),
       (((-bCoeff camOrigin dirZ sphereRed - ratSqrt (discrim camOrigin dirZ sphereRed)) /
          (2 * aCoeff dirZ) : ℚ) : WithTop ℚ)) :=
  ⟨by with_unfolding_all decide,
   (C2_intersect_sentinel_and_roots camOrigin dirZ sphereMiss).2.2.2.2.1
     (by with_unfolding_all decide),
   by with_unfolding_all decide,
   (C2_intersect_sentinel_and_roots camOrigin dirZ sphereRed).2.2.2.2.2
     (by with_unfolding_all decide)⟩

/-- C3: when no sphere yields a root t with t_min < t < t_max, trace_ray
returns exactly the fixed white background color (255, 255, 255). -/
theorem C3_background_white (scene : Scene) (o d : Vec3) (tmin tmax : WithTop ℚ)
    (h : ∀ s ∈ scene.objects,
      ∀ t ∈ [(intersect_ray_sphere o d s).1, (intersect_ray_sphere o d s).2],
        ¬ qualifies tmin tmax t) :
    trace_ray scene o d tmin tmax = ⟨255, 255, 255⟩ := by
  apply trace_ray_of_none scene o d tmin tmax ⊤
  apply closestHit_eq_none
  intro c hc
  rcases (mem_hitCands o d scene.objects c).mp hc with ⟨s, hs, hcase⟩
  rcases hcase with rfl | rfl
  · exact h s hs _ (List.mem_cons_self _ _)
  · exact h s hs _ (List.mem_cons_of_mem _ (List.mem_cons_self _ _))

/-- C3 witness: a sphere entirely behind the ray (both roots negative)
is rejected by the range test and the background is returned. -/
theorem C3_witness :
    (∀ s ∈ (Scene.mk [sphereBehind] [ambientOne]).objects,
      ∀ t ∈ [(intersect_ray_sphere camOrigin dirZ s).1,
             (intersect_ray_sphere camOrigin dirZ s).2],
        ¬ qualifies ((1 : ℚ) : WithTop ℚ) ⊤ t) ∧
    trace_ray ⟨[sphereBehind], [ambientOne]⟩ camOrigin dirZ ((1 : ℚ) : WithTop ℚ) ⊤ =
      ⟨255, 255, 255⟩ :=
  ⟨by with_unfolding_all decide,
   C3_background_white ⟨[sphereBehind], [ambientOne]⟩ camOrigin dirZ _ _
     (by with_unfolding_all decide)⟩

/-- C5: with all light intensities nonnegative, compute_lighting
returns a nonnegative scalar — ambient adds the intensity itself, and
the diffuse and specular terms are clamped below at zero by max(0, ·)
before being added. -/
theorem C5_lighting_nonneg (scene : Scene) (point normal view : Vec3)
    (shininess : Option ℤ) (h : ∀ l ∈ scene.lights, 0 ≤ l.intensity) :
    0 ≤ compute_lighting scene point normal view shininess := by
  rw [compute_lighting_eq_sum]
  apply List.sum_nonneg
  intro x hx
  rcases List.mem_map.mp hx with ⟨light, hmem, rfl⟩
  exact lightContrib_nonneg point normal view shininess light (h light hmem)

/-- C5 witness: a concrete scene with ambient, point and directional
lights of nonnegative intensity. -/
theorem C5_witness :
    (∀ l ∈ (Scene.mk [] [⟨LightKind.Ambient, 1/5⟩, ⟨LightKind.Point ⟨2, 1, 0⟩, 3/5⟩,
        ⟨LightKind.Directional ⟨1, 4, 4⟩, 1/5⟩]).lights, 0 ≤ l.intensity) ∧
    0 ≤ compute_lighting ⟨[], [⟨LightKind.Ambient, 1/5⟩, ⟨LightKind.Point ⟨2, 1, 0⟩, 3/5⟩,
        ⟨LightKind.Directional ⟨1, 4, 4⟩, 1/5⟩]⟩ ⟨0, 0, 2⟩ ⟨0, 0, -1⟩ ⟨0, 0, -1⟩ (some 500) :=
  ⟨by with_unfolding_all decide,
   C5_lighting_nonneg _ _ _ _ _ (by with_unfolding_all decide)⟩

/-- C6: scaling a color by k ≥ 0 multiplies each channel by k
(truncating) and clamps at 255; channels are naturals so no negative
value and no wrap can occur, and the two boundary examples evaluate as
stated. -/
theorem C6_scale_clamps :
    (∀ (c : Rgb) (k : ℚ), 0 ≤ k →
      Rgb.scale c k = ⟨min (((c.r : ℚ) * k).floor.toNat) 255,
        min (((c.g : ℚ) * k).floor.toNat) 255,
        min (((c.b : ℚ) * k).floor.toNat) 255⟩ ∧
      (Rgb.scale c k).r ≤ 255 ∧ (Rgb.scale c k).g ≤ 255 ∧ (Rgb.scale c k).b ≤ 255) ∧
    Rgb.scale ⟨200, 0, 0⟩ 2 = ⟨255, 0, 0⟩ ∧
    Rgb.scale ⟨10, 10, 10⟩ 0 = ⟨0, 0, 0⟩ := by
  refine ⟨?_, by with_unfolding_all decide, by with_unfolding_all decide⟩
  intro c k _
  have heq : Rgb.scale c k = ⟨min (((c.r : ℚ) * k).floor.toNat) 255,
      min (((c.g : ℚ) * k).floor.toNat) 255,
      min (((c.b : ℚ) * k).floor.toNat) 255⟩ := by
    rw [Rgb.scale, scaleChannel_eq, scaleChannel_eq, scaleChannel_eq]
  refine ⟨heq, ?_, ?_, ?_⟩ <;> rw [heq] <;> exact min_le_right _ _

/-- C6 witness: the general clamping shape applied at c = (200,0,0),
k = 2. -/
theorem C6_witness :
    0 ≤ (2 : ℚ) ∧
    (Rgb.scale ⟨200, 0, 0⟩ 2 = ⟨min ((((200 : ℕ) : ℚ) * 2).floor.toNat) 255,
        min ((((0 : ℕ) : ℚ) * 2).floor.toNat) 255,
        min ((((0 : ℕ) : ℚ) * 2).floor.toNat) 255⟩ ∧
      (Rgb.scale ⟨200, 0, 0⟩ 2).r ≤ 255 ∧ (Rgb.scale ⟨200, 0, 0⟩ 2).g ≤ 255 ∧
      (Rgb.scale ⟨200, 0, 0⟩ 2).b ≤ 255) :=
  ⟨by norm_num, C6_scale_clamps.1 ⟨200, 0, 0⟩ 2 (by norm_num)⟩

/-- C8: with a = d·d > 0 and a nonnegative discriminant, the first
root returned (+√disc branch) is at least the second (−√disc branch):
the nearest intersection is always the second component. -/
theorem C8_root_order (o d : Vec3) (s : Sphere)
    (ha : 0 < aCoeff d) (hd : 0 ≤ discrim o d s) :
    (intersect_ray_sphere o d s).2 ≤ (intersect_ray_sphere o d s).1 := by
  rw [intersect_ray_sphere, if_neg (not_lt.mpr hd)]
  apply WithTop.coe_le_coe.mpr
  have hs : 0 ≤ ratSqrt (discrim o d s) := ratSqrt_nonneg _
  have h2a : 0 < 2 * aCoeff d := by linarith
  exact (div_le_div_iff_of_pos_right h2a).mpr (by linarith)

/-- C8 witness: the +z ray into sphereRed, with a = 1 and
discriminant 4: root 2 ≤ root 4. -/
theorem C8_witness :
    0 < aCoeff dirZ ∧ 0 ≤ discrim camOrigin dirZ sphereRed ∧
    (intersect_ray_sphere camOrigin dirZ sphereRed).2 ≤
      (intersect_ray_sphere camOrigin dirZ sphereRed).1 :=
  ⟨by with_unfolding_all decide, by with_unfolding_all decide,
   C8_root_order camOrigin dirZ sphereRed (by with_unfolding_all decide)
     (by with_unfolding_all decide)⟩

/-- C9: a sphere whose discriminant is negative is never the recorded
closest hit, for every t_max including +∞ (render's choice): its
sentinel roots are ⊤ and ⊤ < t_max never holds. -/
theorem C9_sentinel_never_selected (scene : Scene) (o d : Vec3)
    (tmin tmax ct : WithTop ℚ) (s : Sphere)
    (h : closestHit scene o d tmin tmax = (ct, some s)) :
    0 ≤ discrim o d s := by
  by_contra hneg
  have hsent : intersect_ray_sphere o d s = (⊤, ⊤) := by
    rw [intersect_ray_sphere, if_pos (lt_of_not_le hneg)]
  rcases closestHit_some_char scene o d tmin tmax ct s h with
    ⟨l₁, l₂, hsplit, hq, _, _⟩
  have hmem : (ct, s) ∈ hitCands o d scene.objects := by
    rw [hsplit]
    exact List.mem_append.mpr (Or.inr (List.mem_cons_self _ _))
  rcases (mem_hitCands o d scene.objects _).mp hmem with ⟨s', _, hcase⟩
  have hs' : s' = s := by
    rcases hcase with hpair | hpair
    · exact (congrArg Prod.snd hpair).symm
    · exact (congrArg Prod.snd hpair).symm
  rcases hcase with hpair | hpair <;>
    · rw [hs', hsent] at hpair
      have hct : ct = ⊤ := congrArg Prod.fst hpair
      rw [hct] at hq
      exact WithTop.not_top_lt tmax hq.2

/-- C9 witness: in a scene holding a hit sphere and a missed sphere,
the recorded sphere indeed has nonnegative discriminant, with
t_max = +∞ as in render. -/
theorem C9_witness :
    closestHit ⟨[sphereMiss, sphereRed], [ambientOne]⟩ camOrigin dirZ
      ((1 : ℚ) : WithTop ℚ) ⊤ = (((2 : ℚ) : WithTop ℚ), some sphereRed) ∧
    0 ≤ discrim camOrigin dirZ sphereRed :=
  ⟨by with_unfolding_all decide,
   C9_sentinel_never_selected ⟨[sphereMiss, sphereRed], [ambientOne]⟩ camOrigin dirZ
     ((1 : ℚ) : WithTop ℚ) ⊤ ((2 : ℚ) : WithTop ℚ) sphereRed
     (by with_unfolding_all decide)⟩

/-- C10: the squared radius is computed in u32 before the conversion to
f64: exact for radius ≤ 65535, and wrapped modulo 2^32 — hence a wrong
c coefficient — for any larger radius. -/
theorem C10_radius_squared_u32 (s : Sphere) (o : Vec3) :
    (s.radius ≤ 65535 →
      sq32 s.radius = s.radius * s.radius ∧
      cCoeff o s = (o.sub s.center).dot (o.sub s.center) -
        (s.radius : ℚ) * (s.radius : ℚ)) ∧
    (65535 < s.radius →
      sq32 s.radius ≠ s.radius * s.radius ∧
      cCoeff o s ≠ (o.sub s.center).dot (o.sub s.center) -
        (s.radius : ℚ) * (s.radius : ℚ)) := by
  constructor
  · intro hr
    have hlt : s.radius * s.radius < 2 ^ 32 :=
      lt_of_le_of_lt (Nat.mul_le_mul hr hr) (by norm_num)
    have hs : sq32 s.radius = s.radius * s.radius := Nat.mod_eq_of_lt hlt
    refine ⟨hs, ?_⟩
    rw [cCoeff, hs]
    push_cast
    ring
  · intro hr
    have hge : 2 ^ 32 ≤ s.radius * s.radius := by
      calc (2 : ℕ) ^ 32 = 65536 * 65536 := by norm_num
      _ ≤ s.radius * s.radius := Nat.mul_le_mul hr hr
    have hlt : sq32 s.radius < 2 ^ 32 := Nat.mod_lt _ (by norm_num)
    have hne : sq32 s.radius ≠ s.radius * s.radius := by omega
    refine ⟨hne, ?_⟩
    rw [cCoeff]
    intro heq
    apply hne
    have hq : ((sq32 s.radius : ℚ)) = ((s.radius : ℚ) * (s.radius : ℚ)) := by
      have := sub_right_injective heq
      linarith [this]
    exact_mod_cast hq

/-- C10 witness: exact at radius 1, wrapped (and c wrong) at radius
65536. -/
theorem C10_witness :
    (sphereRed.radius ≤ 65535 ∧
      sq32 sphereRed.radius = sphereRed.radius * sphereRed.radius ∧
      cCoeff camOrigin sphereRed =
        (camOrigin.sub sphereRed.center).dot (camOrigin.sub sphereRed.center) -
          (sphereRed.radius : ℚ) * (sphereRed.radius : ℚ)) ∧
    (65535 < sphereHuge.radius ∧
      sq32 sphereHuge.radius ≠ sphereHuge.radius * sphereHuge.radius ∧
      cCoeff camOrigin sphereHuge ≠
        (camOrigin.sub sphereHuge.center).dot (camOrigin.sub sphereHuge.center) -
          (sphereHuge.radius : ℚ) * (sphereHuge.radius : ℚ)) :=
  ⟨⟨by decide, (C10_radius_squared_u32 sphereRed camOrigin).1 (by decide)⟩,
   ⟨by decide, (C10_radius_squared_u32 sphereHuge camOrigin).2 (by decide)⟩⟩

/-- C1: the closest-hit scan examines both roots of every sphere in
iteration order (it equals the fold over the flattened two-roots-per-
sphere candidate list), and whenever it records a hit, the candidate
list splits around the recorded (t, sphere): t satisfies
t_min < t < t_max, every earlier qualifying candidate is strictly
greater (so at an equal smallest t the earlier sphere wins — strict <,
not ≤), and every qualifying candidate in the whole list is at least
t. -/
theorem C1_closest_hit_selection (scene : Scene) (o d : Vec3)
    (tmin tmax : WithTop ℚ) :
    closestHit scene o d tmin tmax =
      candFold tmin tmax (⊤, none) (hitCands o d scene.objects) ∧
    ∀ ct s, closestHit scene o d tmin tmax = (ct, some s) →
      ∃ l₁ l₂, hitCands o d scene.objects = l₁ ++ (ct, s) :: l₂ ∧
        qualifies tmin tmax ct ∧
        (∀ c ∈ l₁, qualifies tmin tmax c.1 → ct < c.1) ∧
        (∀ c ∈ hitCands o d scene.objects, qualifies tmin tmax c.1 → ct ≤ c.1) :=
  ⟨closestHit_eq_candFold scene o d tmin tmax,
   fun ct s h => closestHit_some_char scene o d tmin tmax ct s h⟩

/-- C1 witness: two coincident spheres tie at t = 2 and the first one
(sphereRed) is recorded, with the candidate split instantiated. -/
theorem C1_witness :
    closestHit tieScene camOrigin dirZ ((1 : ℚ) : WithTop ℚ) ⊤ =
      (((2 : ℚ) : WithTop ℚ), some sphereRed) ∧
    (∃ l₁ l₂, hitCands camOrigin dirZ tieScene.objects =
        l₁ ++ (((2 : ℚ) : WithTop ℚ), sphereRed) :: l₂ ∧
      qualifies ((1 : ℚ) : WithTop ℚ) ⊤ ((2 : ℚ) : WithTop ℚ) ∧
      (∀ c ∈ l₁, qualifies ((1 : ℚ) : WithTop ℚ) ⊤ c.1 →
        ((2 : ℚ) : WithTop ℚ) < c.1) ∧
      (∀ c ∈ hitCands camOrigin dirZ tieScene.objects,
        qualifies ((1 : ℚ) : WithTop ℚ) ⊤ c.1 → ((2 : ℚ) : WithTop ℚ) ≤ c.1)) :=
  ⟨by with_unfolding_all decide,
   (C1_closest_hit_selection tieScene camOrigin dirZ ((1 : ℚ) : WithTop ℚ) ⊤).2
     ((2 : ℚ) : WithTop ℚ) sphereRed (by with_unfolding_all decide)⟩

/-- rustRange lists exactly the integers of the half-open interval. -/
theorem mem_rustRange (a b x : ℤ) : x ∈ rustRange a b ↔ a ≤ x ∧ x < b := by
  unfold rustRange
  rw [List.mem_map]
  constructor
  · rintro ⟨i, hi, rfl⟩
    rw [List.mem_range] at hi
    omega
  · rintro ⟨h1, h2⟩
    exact ⟨(x - a).toNat, List.mem_range.mpr (by omega), by omega⟩

/-- renderPixels lists exactly the centered coordinate rectangle. -/
theorem mem_renderPixels (w h : ℕ) (x y : ℤ) :
    (x, y) ∈ renderPixels w h ↔
      (-((w : ℤ) / 2) ≤ x ∧ x < (w : ℤ) / 2) ∧
      (-((h : ℤ) / 2) ≤ y ∧ y < (h : ℤ) / 2) := by
  simp only [renderPixels, List.mem_flatMap, List.mem_map, Prod.mk.injEq,
    mem_rustRange]
  constructor
  · rintro ⟨x', hx', y', hy', rfl, rfl⟩
    exact ⟨hx', hy'⟩
  · rintro ⟨hx, hy⟩
    exact ⟨x, hx, y, hy, rfl, rfl⟩

/-- C7: render iterates exactly the centered ranges
x ∈ [−w/2, w/2), y ∈ [−h/2, h/2); for every such pixel the translated
buffer indices are in bounds, so put_pixel's out-of-bounds branch is
unreachable from render; and the centered origin maps to buffer
(w/2, h/2 − 1).  The strict width and height bounds keep the
dimensions i32-representable (i32 holds at most 2^31 − 1), so every
intermediate value of the source fits in i32 and the elided machine
casts are the identity. -/
theorem C7_render_in_bounds (c : Canvas)
    (hw : (c.width : ℤ) < 2 ^ 31) (hh : (c.height : ℤ) < 2 ^ 31) :
    (∀ x y : ℤ, (x, y) ∈ renderPixels c.width c.height ↔
      (-((c.width : ℤ) / 2) ≤ x ∧ x < (c.width : ℤ) / 2) ∧
      (-((c.height : ℤ) / 2) ≤ y ∧ y < (c.height : ℤ) / 2)) ∧
    (∀ x y : ℤ, (x, y) ∈ renderPixels c.width c.height →
      put_pixel_idx c x y =
        some (((c.width : ℤ) / 2 + x).toNat, ((c.height : ℤ) / 2 - (y + 1)).toNat)) ∧
    (2 ≤ c.width → 2 ≤ c.height →
      put_pixel_idx c 0 0 = some (c.width / 2, c.height / 2 - 1)) := by
  refine ⟨fun x y => mem_renderPixels c.width c.height x y, ?_, ?_⟩
  · intro x y hmem
    rcases (mem_renderPixels c.width c.height x y).mp hmem with ⟨⟨hx1, hx2⟩, ⟨hy1, hy2⟩⟩
    rw [put_pixel_idx, if_pos]
    omega
  · intro hw2 hh2
    rw [put_pixel_idx, if_pos]
    · simp only [Option.some.injEq, Prod.mk.injEq]
      constructor <;> omega
    · omega

/-- C7 witness: the 1024×1024 canvas of main.rs. -/
theorem C7_witness :
    (∀ x y : ℤ, (x, y) ∈ renderPixels (Canvas.mk 1024 1024).width
        (Canvas.mk 1024 1024).height ↔
      (-(((Canvas.mk 1024 1024).width : ℤ) / 2) ≤ x ∧
        x < ((Canvas.mk 1024 1024).width : ℤ) / 2) ∧
      (-(((Canvas.mk 1024 1024).height : ℤ) / 2) ≤ y ∧
        y < ((Canvas.mk 1024 1024).height : ℤ) / 2)) ∧
    (∀ x y : ℤ, (x, y) ∈ renderPixels (Canvas.mk 1024 1024).width
        (Canvas.mk 1024 1024).height →
      put_pixel_idx (Canvas.mk 1024 1024) x y =
        some ((((Canvas.mk 1024 1024).width : ℤ) / 2 + x).toNat,
          (((Canvas.mk 1024 1024).height : ℤ) / 2 - (y + 1)).toNat)) ∧
    (2 ≤ (Canvas.mk 1024 1024).width → 2 ≤ (Canvas.mk 1024 1024).height →
      put_pixel_idx (Canvas.mk 1024 1024) 0 0 =
        some ((Canvas.mk 1024 1024).width / 2, (Canvas.mk 1024 1024).height / 2 - 1)) :=
  C7_render_in_bounds (Canvas.mk 1024 1024) (by norm_num) (by norm_num)

/-- C4 counterexample: the claim fails as stated — two coincident
spheres of different colors tie at the smallest qualifying t, so
reversing the objects list changes the returned color. -/
theorem C4_counterexample :
    trace_ray tieScene camOrigin dirZ ((1 : ℚ) : WithTop ℚ) ⊤ ≠
      trace_ray tieSceneRev camOrigin dirZ ((1 : ℚ) : WithTop ℚ) ⊤ := by
  with_unfolding_all decide

/-- attainsMin transfers along a permutation of the objects list. -/
theorem attainsMin_of_perm (o d : Vec3) (tmin tmax : WithTop ℚ)
    {objs objs' : List Sphere} (hp : List.Perm objs objs')
    (t : WithTop ℚ) (s : Sphere) (h : attainsMin o d tmin tmax objs t s) :
    attainsMin o d tmin tmax objs' t s := by
  have hcp : List.Perm (hitCands o d objs) (hitCands o d objs') :=
    List.Perm.flatMap_right _ hp
  rcases h with ⟨hmem, hq, hmin⟩
  exact ⟨hcp.mem_iff.mp hmem, hq,
    fun c hc hqc => hmin c (hcp.mem_iff.mpr hc) hqc⟩

/-- C4 (amended): permuting the lights alone never changes trace_ray;
permuting the spheres leaves the color unchanged whenever at most one
sphere attains the smallest qualifying root — in particular for two
spheres hit at different distances — while a tie between distinct
spheres at the equal smallest t is resolved by iteration order and can
change the color (see the counterexample). -/
theorem C4_order_independence :
    (∀ (objs : List Sphere) (ls ls' : List Light) (o d : Vec3)
        (tmin tmax : WithTop ℚ), List.Perm ls ls' →
      trace_ray ⟨objs, ls⟩ o d tmin tmax = trace_ray ⟨objs, ls'⟩ o d tmin tmax) ∧
    (∀ (objs objs' : List Sphere) (ls ls' : List Light) (o d : Vec3)
        (tmin tmax : WithTop ℚ), List.Perm objs objs' → List.Perm ls ls' →
      (∀ t₁ s₁ t₂ s₂, attainsMin o d tmin tmax objs t₁ s₁ →
        attainsMin o d tmin tmax objs t₂ s₂ → s₁ = s₂) →
      trace_ray ⟨objs, ls⟩ o d tmin tmax = trace_ray ⟨objs', ls'⟩ o d tmin tmax) := by
  have lightsOnly : ∀ (objs : List Sphere) (ls ls' : List Light) (o d : Vec3)
      (tmin tmax : WithTop ℚ), List.Perm ls ls' →
      trace_ray ⟨objs, ls⟩ o d tmin tmax = trace_ray ⟨objs, ls'⟩ o d tmin tmax := by
    intro objs ls ls' o d tmin tmax hl
    have hch : closestHit ⟨objs, ls⟩ o d tmin tmax =
        closestHit ⟨objs, ls'⟩ o d tmin tmax := rfl
    rcases hres : closestHit ⟨objs, ls⟩ o d tmin tmax with ⟨ct, cs⟩
    cases cs with
    | none =>
        rw [trace_ray_of_none _ _ _ _ _ _ hres,
          trace_ray_of_none _ _ _ _ _ _ (hch ▸ hres)]
    | some s =>
        rw [trace_ray_of_some _ _ _ _ _ _ _ hres,
          trace_ray_of_some _ _ _ _ _ _ _ (hch ▸ hres)]
        rw [compute_lighting_perm objs objs ls ls' hl]
  refine ⟨lightsOnly, ?_⟩
  intro objs objs' ls ls' o d tmin tmax hobj hl huniq
  have hstep : trace_ray ⟨objs, ls⟩ o d tmin tmax =
      trace_ray ⟨objs, ls'⟩ o d tmin tmax := lightsOnly objs ls ls' o d tmin tmax hl
  rw [hstep]
  clear hstep hl ls
  have hcp : List.Perm (hitCands o d objs) (hitCands o d objs') :=
    List.Perm.flatMap_right _ hobj
  rcases hres : closestHit ⟨objs, ls'⟩ o d tmin tmax with ⟨ct, cs⟩
  cases cs with
  | none =>
      have hnq := closestHit_none_no_qual _ o d tmin tmax ct hres
      have hnq' : ∀ c ∈ hitCands o d objs', ¬ qualifies tmin tmax c.1 :=
        fun c hc => hnq c (hcp.mem_iff.mpr hc)
      rw [trace_ray_of_none _ _ _ _ _ _ hres,
        trace_ray_of_none _ _ _ _ _ _ (closestHit_eq_none ⟨objs', ls'⟩ o d tmin tmax hnq')]
  | some s =>
      rcases closestHit_some_char _ o d tmin tmax ct s hres with
        ⟨l₁, l₂, hsplit, hq, _, hmin⟩
      have hmem : (ct, s) ∈ hitCands o d objs := by
        rw [hsplit]
        exact List.mem_append.mpr (Or.inr (List.mem_cons_self _ _))
      have hatt : attainsMin o d tmin tmax objs ct s := ⟨hmem, hq, hmin⟩
      rcases hres' : closestHit ⟨objs', ls'⟩ o d tmin tmax with ⟨ct', cs'⟩
      cases cs' with
      | none =>
          exact absurd hq
            (closestHit_none_no_qual _ o d tmin tmax ct' hres' (ct, s)
              (hcp.mem_iff.mp hmem))
      | some s' =>
          rcases closestHit_some_char _ o d tmin tmax ct' s' hres' with
            ⟨l₁', l₂', hsplit', hq', _, hmin'⟩
          have hmem' : (ct', s') ∈ hitCands o d objs' := by
            rw [hsplit']
            exact List.mem_append.mpr (Or.inr (List.mem_cons_self _ _))
          have hatt' : attainsMin o d tmin tmax objs ct' s' :=
            attainsMin_of_perm o d tmin tmax hobj.symm ct' s'
              ⟨hmem', hq', hmin'⟩
          have hctle : ct ≤ ct' := hmin (ct', s') (hcp.mem_iff.mpr hmem') hq'
          have hct'le : ct' ≤ ct := hatt'.2.2 (ct, s) hmem hq
          have hcteq : ct' = ct := le_antisymm hct'le hctle
          have hseq : s = s' := huniq ct s ct' s' hatt hatt'
          rw [trace_ray_of_some _ _ _ _ _ _ _ hres,
            trace_ray_of_some _ _ _ _ _ _ _ hres', hcteq, hseq]
          exact congrArg (Rgb.scale s'.color)
            (compute_lighting_perm objs objs' ls' ls' (List.Perm.refl _) _ _ _ _)

/-- C4 (amended) witness: two spheres at distances 2 and 6 on the same
ray; either order returns the nearer sphere's color. -/
theorem C4_witness :
    trace_ray ⟨[sphereRed, sphereFar], [ambientOne]⟩ camOrigin dirZ
        ((1 : ℚ) : WithTop ℚ) ⊤ =
      trace_ray ⟨[sphereFar, sphereRed], [ambientOne]⟩ camOrigin dirZ
        ((1 : ℚ) : WithTop ℚ) ⊤ :=
  C4_order_independence.2 [sphereRed, sphereFar] [sphereFar, sphereRed]
    [ambientOne] [ambientOne] camOrigin dirZ ((1 : ℚ) : WithTop ℚ) ⊤
    (by with_unfolding_all decide) (List.Perm.refl _)
    (by
      have key : ∀ t s, attainsMin camOrigin dirZ ((1 : ℚ) : WithTop ℚ) ⊤
          [sphereRed, sphereFar] t s → s = sphereRed := by
        rintro t s ⟨hmem, hq, hmin⟩
        have h4 : hitCands camOrigin dirZ [sphereRed, sphereFar] =
            [(((4 : ℚ) : WithTop ℚ), sphereRed), (((2 : ℚ) : WithTop ℚ), sphereRed),
             (((8 : ℚ) : WithTop ℚ), sphereFar), (((6 : ℚ) : WithTop ℚ), sphereFar)] := by
          with_unfolding_all decide
        rw [h4] at hmem hmin
        have hle := hmin (((2 : ℚ) : WithTop ℚ), sphereRed)
          (List.mem_cons_of_mem _ (List.mem_cons_self _ _))
          (by with_unfolding_all decide)
        simp only [List.mem_cons, List.not_mem_nil, or_false] at hmem
        rcases hmem with h | h | h | h
        · have ht : t = ((4 : ℚ) : WithTop ℚ) := congrArg Prod.fst h
          rw [ht] at hle
          exact absurd hle (by with_unfolding_all decide)
        · exact congrArg Prod.snd h
        · have ht : t = ((8 : ℚ) : WithTop ℚ) := congrArg Prod.fst h
          rw [ht] at hle
          exact absurd hle (by with_unfolding_all decide)
        · have ht : t = ((6 : ℚ) : WithTop ℚ) := congrArg Prod.fst h
          rw [ht] at hle
          exact absurd hle (by with_unfolding_all decide)
      intro t₁ s₁ t₂ s₂ h₁ h₂
      rw [key t₁ s₁ h₁, key t₂ s₂ h₂])

end Raytracer
